import Mathlib

/-!
Verification of the repository-map engine (`openhands/indexing/repomap.py`
and its reduced copy under
`openhands/runtime/plugins/agent_skills/utils/aider/repomap.py`).

The Python code is shallowly embedded: pure functions become Lean
functions; the mutable tag cache becomes explicit state passing; floats
(file mtimes, token estimates, graph ranks) become rationals; external
collaborators that are not part of this repository (tree-sitter queries,
the pygments lexer, networkx pagerank, the litellm token counter, the
grep-ast tree renderer, the filesystem) are passed in as explicit function
parameters, so every theorem quantifies over their behaviour unless a
concrete instance is supplied.

Python dicts are modelled as association lists in key-insertion order,
Python sets of strings as duplicate-free lists; `sorted` is modelled by a
stable merge sort with the same comparison.
-/

namespace RepoMap

/-- Mirrors `Tag = namedtuple('Tag', ('rel_fname', 'fname', 'line', 'name', 'kind'))`
(repomap.py line 24).  `line` is an integer (it is set to `-1` by the
lexical fallback), `kind` is the literal string `'def'` or `'ref'`. -/
structure Tag where
  rel_fname : String
  fname : String
  line : ℤ
  name : String
  kind : String
deriving DecidableEq, Repr

/-- An entry of the list built by `get_ranked_tags`: either a concrete
`Tag` or a single-element bare-path marker tuple `(fname,)`. -/
inductive RankedTag where
  | tag (t : Tag)
  | bare (fname : String)
deriving DecidableEq, Repr

/-- Python `rt[0]`: the first tuple component of either entry shape
(for a `Tag` this is its `rel_fname`). -/
def rtFst : RankedTag → String
  | RankedTag.tag t => t.rel_fname
  | RankedTag.bare f => f

/-- First binding of a key in an association list (Python dict lookup). -/
def assocFind? {α β : Type} [DecidableEq α] : List (α × β) → α → Option β
  | [], _ => none
  | (k, v) :: rest, key => if k = key then some v else assocFind? rest key

/-- Python dict assignment `d[k] = v`: overwrite in place if the key is
present, otherwise append (dicts keep key-insertion order). -/
def assocUpd {α β : Type} [DecidableEq α] : List (α × β) → α → β → List (α × β)
  | [], key, v => [(key, v)]
  | (k, w) :: rest, key, v =>
      if k = key then (key, v) :: rest else (k, w) :: assocUpd rest key v

/-- Python `defaultdict(set)` insertion `d[k].add(x)` for string sets:
the per-key value is kept as a duplicate-free list. -/
def dictAddToSet : List (String × List String) → String → String → List (String × List String)
  | [], key, x => [(key, [x])]
  | (k, v) :: rest, key, x =>
      if k = key then (k, if x ∈ v then v else v ++ [x]) :: rest
      else (k, v) :: dictAddToSet rest key x

/-- Python `defaultdict(list)` insertion `d[k].append(x)`. -/
def dictAppend : List (String × List String) → String → String → List (String × List String)
  | [], key, x => [(key, [x])]
  | (k, v) :: rest, key, x =>
      if k = key then (k, v ++ [x]) :: rest
      else (k, v) :: dictAppend rest key x

/-- Python `defaultdict(set)` insertion `definitions[(rel, name)].add(tag)`. -/
def dictAddTag : List ((String × String) × List Tag) → (String × String) → Tag →
    List ((String × String) × List Tag)
  | [], key, t => [(key, [t])]
  | (k, v) :: rest, key, t =>
      if k = key then (k, if t ∈ v then v else v ++ [t]) :: rest
      else (k, v) :: dictAddTag rest key t

/-- Python `defaultdict(float)` accumulation `d[k] += q`. -/
def dictAccum {κ : Type} [DecidableEq κ] : List (κ × ℚ) → κ → ℚ → List (κ × ℚ)
  | [], key, q => [(key, q)]
  | (k, v) :: rest, key, q =>
      if k = key then (k, v + q) :: rest
      else (k, v) :: dictAccum rest key q

/-- Python `collections.Counter(xs).items()`: pairs `(x, multiplicity)`
in first-occurrence order. -/
def counterItems (xs : List String) : List (String × ℕ) :=
  xs.foldl (fun acc x => dictCount acc x) []
where
  dictCount : List (String × ℕ) → String → List (String × ℕ)
    | [], x => [(x, 1)]
    | (k, n) :: rest, x =>
        if k = x then (k, n + 1) :: rest else (k, n) :: dictCount rest x

/-- Python `set(xs)` materialized as a list: duplicates removed, keeping
first occurrences (set iteration order is interpreter-defined; any
deterministic stand-in serves, and no claim depends on it). -/
def pySet : List String → List String
  | [] => []
  | x :: xs => x :: (pySet xs).filter (fun y => y ≠ x)

/-- Python `sorted(set(xs))` for strings (lexicographic by code point). -/
def sortedSet (xs : List String) : List String :=
  (pySet xs).mergeSort (fun a b => decide (a ≤ b))

/-! ## Tag cache (`get_tags`, repomap.py lines 372-391)

The on-disk `diskcache.Cache` is modelled as an association list from the
absolute path to `(mtime, tags)`; the file system clock `os.path.getmtime`
is the parameter `mtimeOf` (`none` models `FileNotFoundError`, cf.
`get_mtime`, lines 644-648); the parser `get_tags_raw` is the parameter
`extractor`.  The function returns the produced tag list together with
the cache state after the call. -/

/-- Mirrors `RepoMap.get_tags`: mtime-keyed cache in front of the tag
extractor.  Returns `(tags, cache_after)`. -/
def get_tags (tagsCache : List (String × ℚ × List Tag)) (mtimeOf : String → Option ℚ)
    (extractor : String → String → List Tag) (fname rel_fname : String) :
    List Tag × List (String × ℚ × List Tag) :=
  match mtimeOf fname with
  | none => ([], tagsCache)
  | some file_mtime =>
    match assocFind? tagsCache fname with
    | some (m, data) =>
        if m = file_mtime then (data, tagsCache)
        else
          let d := extractor fname rel_fname
          (d, assocUpd tagsCache fname (file_mtime, d))
    | none =>
        let d := extractor fname rel_fname
        (d, assocUpd tagsCache fname (file_mtime, d))

/-! ## Tag extraction (`get_tags_raw`, repomap.py lines 393-471)

External collaborators are parameters: `lang` is the result of
`filename_to_lang`; `scmQuery` is the text of the tags query resource
(`none` models either the `KeyError` from `resources.files` or the query
file not existing); `code` is the result of `read_text` (`none` models a
read failure); `capturesOf query code` is the list of
`(node_text, node_start_line, capture_tag)` triples produced by the
tree-sitter query; `lexTokens` is the list of pygments `Token.Name` token
texts (`none` models `ClassNotFound` from `guess_lexer_for_filename`). -/

/-- Python `str.startswith`, computably: prefix test on the character
lists. -/
def pyStartsWith (s pre : String) : Bool :=
  pre.data.isPrefixOf s.data

/-- Helper: the `Tag` yielded by the capture loop of `get_tags_raw`. -/
def captureTag (fname rel_fname : String) (c : String × ℤ × String) (kind : String) : Tag :=
  { rel_fname := rel_fname, fname := fname, line := c.2.1, name := c.1, kind := kind }

/-- Mirrors `RepoMap.get_tags_raw`: per-capture def/ref tags, then the
pygments lexical fallback when the query produced definitions but no
references. -/
def get_tags_raw (lang : Option String) (scmQuery : Option String) (code : Option String)
    (capturesOf : String → String → List (String × ℤ × String))
    (lexTokens : Option (List String)) (fname rel_fname : String) : List Tag :=
  match lang with
  | none => []
  | some _ =>
    match scmQuery with
    | none => []
    | some query_scm =>
      match code with
      | none => []
      | some code' =>
        if code' = "" then []
        else
          let captures := capturesOf query_scm code'
          let mainTags := captures.filterMap (fun c =>
            if pyStartsWith (c.2.2) "name.definition." then
              some (captureTag fname rel_fname c "def")
            else if pyStartsWith (c.2.2) "name.reference." then
              some (captureTag fname rel_fname c "ref")
            else none)
          let sawRef := captures.any (fun c => pyStartsWith (c.2.2) "name.reference.")
          let sawDef := captures.any (fun c => pyStartsWith (c.2.2) "name.definition.")
          if sawRef then mainTags
          else if ¬ sawDef then mainTags
          else
            match lexTokens with
            | none => mainTags
            | some toks =>
                mainTags ++ toks.map (fun tok =>
                  { rel_fname := rel_fname, fname := fname, line := -1,
                    name := tok, kind := "ref" : Tag })

/-! ## Top guards (`get_repo_map`, repomap.py lines 70-105) and the
history-aware wrapper (lines 55-68)

The whole ranking-and-rendering pipeline `get_ranked_tags_map` is the
parameter `listingOf` (`none` or `""` are both falsy in
`if not files_listing`); `prefixStr` models `self.repo_content_prefix`
(`none` or `""` are falsy in `self.repo_content_prefix or ''`).  The
`RecursionError` soft-failure path is not modelled (it only exchanges one
empty-string return for another and disables later calls). -/

/-- Mirrors `RepoMap.get_repo_map`: budget/empty-set guards around the
ranked-tags-map computation, then the optional content header. -/
def get_repo_map (maxMapTokens : ℤ) (prefixStr : Option String)
    (listingOf : List String → List String → List String → Option String)
    (other_files mentioned_fnames mentioned_idents : List String) : String :=
  if maxMapTokens ≤ 0 then ""
  else if other_files = [] then ""
  else
    match listingOf other_files mentioned_fnames mentioned_idents with
    | none => ""
    | some files_listing =>
        if files_listing = "" then ""
        else (prefixStr.getD "") ++ files_listing

/-- Mirrors `RepoMap.get_history_aware_repo_map`: extract mentions from
the message history, call `get_repo_map` with them, and retry without
mentions when the first result is empty. -/
def get_history_aware_repo_map (maxMapTokens : ℤ) (prefixStr : Option String)
    (listingOf : List String → List String → List String → Option String)
    (fileMentionsOf identMentionsOf : String → List String)
    (all_files : List String) (messages_history : String) : String :=
  let mentioned_fnames := fileMentionsOf messages_history
  let mentioned_idents := identMentionsOf messages_history
  let repo_map_content :=
    get_repo_map maxMapTokens prefixStr listingOf all_files mentioned_fnames mentioned_idents
  if repo_map_content = "" then
    get_repo_map maxMapTokens prefixStr listingOf all_files [] []
  else repo_map_content

/-! ## The two `file_is_ignored` copies (C10)

`openhands/indexing/repomap.py` lines 623-642 and
`openhands/runtime/plugins/agent_skills/utils/aider/repomap.py` lines
167-186.  The shared ignore-file state is abstracted: `ignoreTruthy` is
the truthiness of `self.aider_ignore_file` (a `Path`), `ignoreIsFile` is
`self.aider_ignore_file.is_file()`, `normalize` is `self.normalize_path`
(`none` models the `ValueError` branch), and `matchFile` is
`self.aider_ignore_spec.match_file` after the mtime-triggered pattern
reload, which is textually identical in the two copies. -/

/-- The abstract ignore-file state shared by the two copies. -/
structure IgnoreEnv where
  ignoreTruthy : Bool
  ignoreIsFile : Bool
  normalize : String → Option String
  matchFile : String → Bool

/-- Mirrors `file_is_ignored` in `openhands/indexing/repomap.py`:
returns `False` when the ignore file does not exist. -/
def file_is_ignored_indexing (env : IgnoreEnv) (fname : String) : Bool :=
  if ¬ env.ignoreTruthy ∨ ¬ env.ignoreIsFile then false
  else
    match env.normalize fname with
    | none => true
    | some f => env.matchFile f

/-- Mirrors `file_is_ignored` in the agent-skills aider copy:
returns `True` when the ignore file does not exist. -/
def file_is_ignored_aider (env : IgnoreEnv) (fname : String) : Bool :=
  if ¬ env.ignoreTruthy ∨ ¬ env.ignoreIsFile then true
  else
    match env.normalize fname with
    | none => true
    | some f => env.matchFile f

/-! ## Graph ranking (`get_ranked_tags`, repomap.py lines 237-370)

External collaborators are parameters: `isFile` is `Path(fname).is_file()`,
`relOf` is `self.get_relative_fname`, `tagsOf` is
`list(self.get_tags(fname, rel_fname))` (the cache-backed extractor), and
`prVals` is `nx.pagerank(G, weight='weight', **pers_args)` — an external
networkx computation, modelled as a total function of the edge list, the
optional personalization arguments and the node.  (The
`except ZeroDivisionError` guard around `nx.pagerank` is not modelled:
for the graphs built here — positive integer edge weights, strictly
positive personalization values — networkx pagerank does not raise it.)
The `warned_files` diagnostic bookkeeping for skipped paths is omitted;
Python-set iteration orders are replaced by insertion order. -/

/-- A `G.add_edge(referencer, definer, weight=mul * num_refs, ident=ident)`
record (repomap.py line 313). -/
structure Edge where
  src : String
  dst : String
  weight : ℚ
  ident : String
deriving DecidableEq, Repr

/-- The four dicts filled by the file loop of `get_ranked_tags`
(lines 240-287): `defines`, `references`, `definitions`, `personalization`. -/
structure CollectedData where
  defines : List (String × List String)
  references : List (String × List String)
  definitions : List ((String × String) × List Tag)
  personalization : List (String × ℚ)
deriving Repr

/-- The inner loop over one file's tags (lines 280-287). -/
def collectFileTags (rel : String) (tags : List Tag) (st : CollectedData) : CollectedData :=
  tags.foldl (fun s tag =>
    let s1 :=
      if tag.kind = "def" then
        { s with defines := dictAddToSet s.defines tag.name rel,
                 definitions := dictAddTag s.definitions (rel, tag.name) tag }
      else s
    if tag.kind = "ref" then
      { s1 with references := dictAppend s1.references tag.name rel }
    else s1) st

/-- The file loop of `get_ranked_tags` (lines 257-287): skip non-files,
record the personalization bias for mentioned paths, and collect the
def/ref dicts from each file's tags.  Note the Python condition is
`if fname in mentioned_fnames` on the path as given in the input file
set, not on its relative form. -/
def collectTags (isFile : String → Bool) (relOf : String → String)
    (tagsOf : String → String → List Tag) (personalize : ℚ)
    (fnames mentioned_fnames : List String) : CollectedData :=
  fnames.foldl (fun st fname =>
    if ¬ isFile fname then st
    else
      let rel_fname := relOf fname
      let st0 :=
        if fname ∈ mentioned_fnames then
          { st with personalization := assocUpd st.personalization rel_fname personalize }
        else st
      collectFileTags rel_fname (tagsOf fname rel_fname) st0)
    ⟨[], [], [], []⟩

/-- Lines 294-313: identifiers present both as definitions and references
produce one edge per (referencer, occurrence-count, definer) triple with
weight `mul * num_refs`, `mul = 10` for mentioned identifiers. -/
def edgesOf (defines references : List (String × List String))
    (mentioned_idents : List String) : List Edge :=
  let idents := (defines.map Prod.fst).filter (fun k => k ∈ references.map Prod.fst)
  idents.flatMap (fun ident =>
    let mul : ℚ := if ident ∈ mentioned_idents then 10 else 1
    let definers := (assocFind? defines ident).getD []
    (counterItems ((assocFind? references ident).getD [])).flatMap (fun rn =>
      definers.map (fun definer =>
        { src := rn.1, dst := definer, weight := mul * rn.2, ident := ident : Edge })))

/-- `G.nodes`: the endpoints of the added edges, in insertion order. -/
def nodesOf (edges : List Edge) : List String :=
  pySet (edges.flatMap (fun e => [e.src, e.dst]))

/-- `G.out_edges(src, data=True)`. -/
def outEdges (edges : List Edge) (src : String) : List Edge :=
  edges.filter (fun e => e.src = src)

/-- `total_weight = sum(data['weight'] for ... in G.out_edges(src, ...))`
(lines 332-334). -/
def outWeight (edges : List Edge) (src : String) : ℚ :=
  ((outEdges edges src).map Edge.weight).sum

/-- Lines 328-339: distribute each node's rank across its out-edges
proportionally to weight, accumulating into a dict keyed by
`(destination, identifier)`. -/
def rankedDefinitions (edges : List Edge) (nodes : List String)
    (prVals : String → ℚ) : List ((String × String) × ℚ) :=
  nodes.foldl (fun acc src =>
    (outEdges edges src).foldl (fun acc2 e =>
      dictAccum acc2 (e.dst, e.ident) (prVals src * e.weight / outWeight edges src)) acc) []

/-- The accumulated rank of one `(file, identifier)` pair as computed by
`get_ranked_tags` (0 for pairs never accumulated into). -/
def accumulatedRankOf (edges : List Edge) (nodes : List String)
    (prVals : String → ℚ) (dst ident : String) : ℚ :=
  (assocFind? (rankedDefinitions edges nodes prVals) (dst, ident)).getD 0

/-- Lines 358-368: walk the rank-sorted node list, removing seen nodes
from the not-yet-included set and appending bare-path markers for nodes
whose relative path contributed no Tag entry.  Returns the final
remaining set together with the appended markers. -/
def topRankLoop : List (ℚ × String) → List String → List String →
    List String × List RankedTag
  | [], remaining, _ => (remaining, [])
  | (_, fname) :: rest, remaining, already =>
      let remaining' := if fname ∈ remaining then remaining.erase fname else remaining
      let emit := if fname ∈ already then ([] : List RankedTag) else [RankedTag.bare fname]
      let res := topRankLoop rest remaining' already
      (res.1, emit ++ res.2)

/-- The personalization dict produced by the file loop of
`get_ranked_tags` for a given input file set and mentioned-file set. -/
def personalizationOf (isFile : String → Bool) (relOf : String → String)
    (tagsOf : String → String → List Tag)
    (other_fnames mentioned_fnames : List String) : List (String × ℚ) :=
  let fnames := sortedSet other_fnames
  let personalize : ℚ := 10 / (fnames.length : ℚ)
  (collectTags isFile relOf tagsOf personalize fnames mentioned_fnames).personalization

/-- Lines 318-321: `pers_args` is empty (`none`) when no personalization
entry was recorded, else carries the dict (used for both the
`personalization` and `dangling` keyword arguments). -/
def persArgsOf (personalization : List (String × ℚ)) : Option (List (String × ℚ)) :=
  if personalization = [] then none else some personalization

/-- The accumulated rank of a `(file, identifier)` pair as computed
inside `get_ranked_tags` for given inputs: the same staged pipeline
(collect, degenerate-references fallback, edge construction,
personalization arguments, rank redistribution) evaluated at one key. -/
def getRankedTagsAccRank (isFile : String → Bool) (relOf : String → String)
    (tagsOf : String → String → List Tag)
    (prVals : List Edge → Option (List (String × ℚ)) → String → ℚ)
    (other_fnames mentioned_fnames mentioned_idents : List String)
    (dst ident : String) : ℚ :=
  let fnames := sortedSet other_fnames
  let personalize : ℚ := 10 / (fnames.length : ℚ)
  let data := collectTags isFile relOf tagsOf personalize fnames mentioned_fnames
  let references := if data.references = [] then data.defines else data.references
  let edges := edgesOf data.defines references mentioned_idents
  let pers_args := persArgsOf data.personalization
  let nodes := nodesOf edges
  accumulatedRankOf edges nodes (fun n => prVals edges pers_args n) dst ident

/-- Scaling of one identifier's edges by the mention multiplier: the
relation between the edge lists built with and without the identifier in
`mentioned_idents`. -/
def scaleEdge (x : String) (e : Edge) : Edge :=
  if e.ident = x then { e with weight := 10 * e.weight } else e

/-- Mirrors `RepoMap.get_ranked_tags` (repomap.py lines 237-370). -/
def get_ranked_tags (isFile : String → Bool) (relOf : String → String)
    (tagsOf : String → String → List Tag)
    (prVals : List Edge → Option (List (String × ℚ)) → String → ℚ)
    (other_fnames mentioned_fnames mentioned_idents : List String) : List RankedTag :=
  let fnames := sortedSet other_fnames
  let personalize : ℚ := 10 / (fnames.length : ℚ)
  let data := collectTags isFile relOf tagsOf personalize fnames mentioned_fnames
  let references := if data.references = [] then data.defines else data.references
  let edges := edgesOf data.defines references mentioned_idents
  let pers_args := persArgsOf data.personalization
  let nodes := nodesOf edges
  let ranked := fun n => prVals edges pers_args n
  let rd := rankedDefinitions edges nodes ranked
  let sortedRD := rd.mergeSort (fun a b => decide (b.2 ≤ a.2))
  let ranked_tags := sortedRD.flatMap (fun kv =>
    ((assocFind? data.definitions kv.1).getD []).map RankedTag.tag)
  let rel_other_fnames_without_tags := pySet (other_fnames.map relOf)
  let fnames_already_included := ranked_tags.map rtFst
  let top_rank := (nodes.map (fun n => (ranked n, n))).mergeSort
    (fun a b => decide (b.1 < a.1 ∨ (b.1 = a.1 ∧ b.2 ≤ a.2)))
  let res := topRankLoop top_rank rel_other_fnames_without_tags fnames_already_included
  ranked_tags ++ res.2 ++ res.1.map RankedTag.bare

/-! ## Budget search (`get_ranked_tags_map_uncached`, repomap.py lines 140-167)

The body of the `while lower_bound <= upper_bound` loop renders
`ranked_tags[:middle]` and estimates its token count; since the claim
fixes the ranked-tag list and the token-estimation function, their
composition is the parameter `tok`, with
`tok m = estimate_token_count(to_tree(ranked_tags[:m]))`.  The source
keeps the best rendered tree and its token count; the model records the
probe `middle` (which determines that tree) together with the count.
Integer division is Python floor division (`Int.fdiv`). -/

/-- `best_tree_tokens`: `0` before any tree is recorded. -/
def bestTokens (best : Option (ℤ × ℚ)) : ℚ :=
  (best.map Prod.snd).getD 0

/-- One-to-one image of the `while` loop (lines 152-165).  `fuel` only
bounds the iteration count: the source loop terminates because the probe
stays inside `[lower, upper]` and the interval shrinks every iteration,
so with the fuel supplied by `budget_search` the `0` case is never
reached. -/
def budgetSearchLoop (fuel : ℕ) (tok : ℤ → ℚ) (maxTokens : ℤ)
    (lower upper middle : ℤ) (best : Option (ℤ × ℚ)) : Option (ℤ × ℚ) :=
  match fuel with
  | 0 => best
  | fuel' + 1 =>
    if lower ≤ upper then
      let num_tokens := tok middle
      let best' :=
        if num_tokens < (maxTokens : ℚ) ∧ bestTokens best < num_tokens then
          some (middle, num_tokens)
        else best
      if num_tokens < (maxTokens : ℚ) then
        budgetSearchLoop fuel' tok maxTokens (middle + 1) upper
          (Int.fdiv (middle + 1 + upper) 2) best'
      else
        budgetSearchLoop fuel' tok maxTokens lower (middle - 1)
          (Int.fdiv (lower + (middle - 1)) 2) best'
    else best

/-- The budget search of `get_ranked_tags_map_uncached`: prefix lengths
range over `[0, numTags]`, the first probe is
`min(max_map_tokens // 25, num_tags)` (line 148), and the result is the
recorded best `(prefix_length, token_estimate)` (`none` models
`best_tree = None`). -/
def budget_search (tok : ℤ → ℚ) (numTags : ℕ) (maxTokens : ℤ) : Option (ℤ × ℚ) :=
  budgetSearchLoop (numTags + 2) tok maxTokens 0 (numTags : ℤ)
    (min (Int.fdiv maxTokens 25) (numTags : ℤ)) none

/-- The prefix length selected by the budget search. -/
def selectedPrefixLen (tok : ℤ → ℚ) (numTags : ℕ) (maxTokens : ℤ) : Option ℤ :=
  (budget_search tok numTags maxTokens).map Prod.fst

/-! ## Rendering (`to_tree`, repomap.py lines 169-205)

The external grep-ast excerpt renderer `render_tree` is the parameter
`render` (its per-(path, lines) memoization cache is behaviourally
transparent).  Text is handled at the character-list level; Python
`str.splitlines` is modelled for `'\n'` boundaries, the only line
boundary this code produces itself. -/

/-- Split a character list at every `'\n'` (like Python `str.split('\n')`:
one more piece than there are newlines). -/
def splitNl : List Char → List (List Char)
  | [] => [[]]
  | c :: cs =>
      if c = '\n' then [] :: splitNl cs
      else
        match splitNl cs with
        | [] => [[c]]
        | h :: t => (c :: h) :: t

/-- Python `'\n'.join`, at the character-list level. -/
def pyJoinNl : List (List Char) → List Char
  | [] => []
  | [q] => q
  | q :: rest => q ++ '\n' :: pyJoinNl rest

/-- Python `str.splitlines` restricted to `'\n'` boundaries: no piece for
the empty string, and no trailing empty piece after a final newline. -/
def pySplitlines (cs : List Char) : List (List Char) :=
  if cs = [] then []
  else if cs.getLast? = some '\n' then (splitNl cs).dropLast
  else splitNl cs

/-- Line 203: `'\n'.join([line[:100] for line in output.splitlines()]) + '\n'`. -/
def truncateLines (s : String) : String :=
  String.mk (pyJoinNl ((pySplitlines s.data).map (fun l => l.take 100)) ++ ['\n'])

/-- Python tuple comparison of two `Tag` namedtuples
(`(rel_fname, fname, line, name, kind)`, lexicographic). -/
def pyTagLe (t u : Tag) : Bool :=
  if t.rel_fname ≠ u.rel_fname then decide (t.rel_fname < u.rel_fname)
  else if t.fname ≠ u.fname then decide (t.fname < u.fname)
  else if t.line ≠ u.line then decide (t.line < u.line)
  else if t.name ≠ u.name then decide (t.name < u.name)
  else decide (t.kind ≤ u.kind)

/-- Python tuple comparison of ranked-tag entries: a bare 1-tuple sorts
before a full `Tag` tuple with the same first component (shorter tuple
first). -/
def pyRankedTagLe : RankedTag → RankedTag → Bool
  | RankedTag.bare a, RankedTag.bare b => decide (a ≤ b)
  | RankedTag.bare a, RankedTag.tag t => decide (a ≤ t.rel_fname)
  | RankedTag.tag t, RankedTag.bare b => decide (t.rel_fname < b)
  | RankedTag.tag t, RankedTag.tag u => pyTagLe t u

/-- Python truthiness of `cur_fname` (`None` and `''` are falsy). -/
def optTruthy : Option String → Bool
  | none => false
  | some s => decide (s ≠ "")

/-- The flush step of the `to_tree` loop (lines 186-192): emit the
current group, either as `path:\n` plus its rendered excerpt (a Tag
group) or as a blank-line-framed bare path. -/
def flushGroup (render : String → String → List ℤ → String)
    (curF curAbs : Option String) (lois : Option (List ℤ)) : String :=
  match lois with
  | some l => (curF.getD "") ++ ":\n" ++ render (curAbs.getD "") (curF.getD "") l
  | none => if optTruthy curF then "\n" ++ (curF.getD "") ++ "\n" else ""

/-- The `for tag in tags + [dummy_tag]` loop of `to_tree` (lines
180-200); the empty-list case plays the final dummy iteration.  In the
same-group case a bare marker with `lois` set would raise
`AttributeError` in Python; that state is unreachable because the input
is pre-sorted (bare markers sort before Tags of the same path), and the
model leaves `lois` unchanged there. -/
def toTreeLoop (render : String → String → List ℤ → String) :
    List RankedTag → Option String → Option String → Option (List ℤ) → String
  | [], curF, curAbs, lois =>
      (match curF with
       | none => ""
       | some _ => flushGroup render curF curAbs lois)
  | tag :: rest, curF, curAbs, lois =>
      let thisRel := rtFst tag
      if some thisRel = curF then
        let lois' :=
          match lois, tag with
          | some l, RankedTag.tag t => some (l ++ [t.line])
          | some l, RankedTag.bare _ => some l
          | none, _ => none
        toTreeLoop render rest curF curAbs lois'
      else
        let out := flushGroup render curF curAbs lois
        let st :=
          match tag with
          | RankedTag.tag t => (some ([t.line] : List ℤ), some t.fname)
          | RankedTag.bare _ => ((none : Option (List ℤ)), curAbs)
        out ++ toTreeLoop render rest (some thisRel) st.2 st.1

/-- Mirrors `RepoMap.to_tree`: empty input yields `''`; otherwise sort,
run the grouping loop, then truncate lines to 100 characters and append
a final newline. -/
def to_tree (render : String → String → List ℤ → String) (tags : List RankedTag) : String :=
  if tags = [] then ""
  else truncateLines (toTreeLoop render (tags.mergeSort pyRankedTagLe) none none none)

/-! ## Theorems -/

/-- Membership survives `pySet` in both directions. -/
theorem mem_pySet {a : String} : ∀ {l : List String}, a ∈ pySet l ↔ a ∈ l := by
  intro l
  induction l with
  | nil => simp [pySet]
  | cons x xs ih =>
      by_cases hax : a = x
      · subst hax
        simp [pySet]
      · simp [pySet, List.mem_filter, hax, ih]

/-- Every path in the not-yet-included set either survives the
top-rank walk, or is emitted as a bare marker during it, or already had
a tag entry. -/
theorem topRankLoop_covers (tr : List (ℚ × String)) :
    ∀ (remaining already : List String) (r : String), r ∈ remaining →
      r ∈ (topRankLoop tr remaining already).1 ∨
        RankedTag.bare r ∈ (topRankLoop tr remaining already).2 ∨
        r ∈ already := by
  induction tr with
  | nil => intro remaining already r hr; exact Or.inl hr
  | cons p rest ih =>
      intro remaining already r hr
      obtain ⟨rank, fname⟩ := p
      have heq : topRankLoop ((rank, fname) :: rest) remaining already =
          ((topRankLoop rest
              (if fname ∈ remaining then remaining.erase fname else remaining)
              already).1,
            (if fname ∈ already then ([] : List RankedTag) else [RankedTag.bare fname]) ++
              (topRankLoop rest
                (if fname ∈ remaining then remaining.erase fname else remaining)
                already).2) := rfl
      rw [heq]
      by_cases hmem : fname ∈ remaining
      · rw [if_pos hmem]
        by_cases hrf : r ∈ remaining.erase fname
        · rcases ih (remaining.erase fname) already r hrf with h | h | h
          · exact Or.inl h
          · exact Or.inr (Or.inl (List.mem_append_right _ h))
          · exact Or.inr (Or.inr h)
        · have hfr : r = fname := by
            by_contra hne
            exact hrf ((List.mem_erase_of_ne hne).mpr hr)
          subst hfr
          by_cases hal : r ∈ already
          · exact Or.inr (Or.inr hal)
          · refine Or.inr (Or.inl (List.mem_append_left _ ?_))
            rw [if_neg hal]
            exact List.mem_singleton.mpr rfl
      · rw [if_neg hmem]
        rcases ih remaining already r hr with h | h | h
        · exact Or.inl h
        · exact Or.inr (Or.inl (List.mem_append_right _ h))
        · exact Or.inr (Or.inr h)

/-- The final assembly of `get_ranked_tags` contains an entry whose first
component is `r` whenever `r` is in the not-yet-included relative-path
set. -/
theorem assembly_complete (ranked_tags : List RankedTag)
    (top_rank : List (ℚ × String)) (rel_other : List String) (r : String)
    (hr : r ∈ rel_other) :
    ∃ e ∈ ranked_tags ++
        (topRankLoop top_rank rel_other (ranked_tags.map rtFst)).2 ++
        (topRankLoop top_rank rel_other (ranked_tags.map rtFst)).1.map RankedTag.bare,
      rtFst e = r := by
  rcases topRankLoop_covers top_rank rel_other (ranked_tags.map rtFst) r hr
    with h | h | h
  · refine ⟨RankedTag.bare r, ?_, rfl⟩
    have h2 : RankedTag.bare r ∈
        (topRankLoop top_rank rel_other (ranked_tags.map rtFst)).1.map RankedTag.bare :=
      List.mem_map_of_mem _ h
    simp only [List.mem_append]
    tauto
  · refine ⟨RankedTag.bare r, ?_, rfl⟩
    simp only [List.mem_append]
    tauto
  · obtain ⟨e, he, hre⟩ := List.mem_map.mp h
    refine ⟨e, ?_, hre⟩
    simp only [List.mem_append]
    tauto

/-- C1: completeness of ranking.  For every file in the input file set
(and for arbitrary filesystem, relative-path map, tag source and
pagerank behaviour), the list returned by `get_ranked_tags` contains at
least one entry — a concrete Tag or a bare-path marker — whose path
component is that file's relative path: no input file is dropped. -/
theorem get_ranked_tags_complete (isFile : String → Bool) (relOf : String → String)
    (tagsOf : String → String → List Tag)
    (prVals : List Edge → Option (List (String × ℚ)) → String → ℚ)
    (other_fnames mentioned_fnames mentioned_idents : List String)
    (f : String) (hf : f ∈ other_fnames) :
    ∃ e ∈ get_ranked_tags isFile relOf tagsOf prVals
        other_fnames mentioned_fnames mentioned_idents,
      rtFst e = relOf f := by
  have hr : relOf f ∈ pySet (other_fnames.map relOf) :=
    mem_pySet.mpr (List.mem_map_of_mem relOf hf)
  simpa only [get_ranked_tags] using
    assembly_complete _ _ (pySet (other_fnames.map relOf)) (relOf f) hr

/-- Witness for C1: a one-file set with no extractable tags still yields
its (single) bare-path marker. -/
theorem get_ranked_tags_complete_witness :
    ∃ e ∈ get_ranked_tags (fun _ => true) (fun s => s) (fun _ _ => [])
        (fun _ _ _ => 1) ["a.py"] [] [],
      rtFst e = "a.py" :=
  get_ranked_tags_complete (fun _ => true) (fun s => s) (fun _ _ => [])
    (fun _ _ _ => 1) ["a.py"] [] [] "a.py" (by decide)

/-- C5: for every input file set, mention sets and prefix, if the
configured token budget `max_map_tokens` is at most zero, or the input
file set is empty, then `get_repo_map` returns the empty string; the
result is this independently of the ranking-and-rendering pipeline
(`listingOf` is universally quantified), so no ranking or rendering is
performed. -/
theorem get_repo_map_budget_disabled (maxMapTokens : ℤ) (prefixStr : Option String)
    (listingOf : List String → List String → List String → Option String)
    (other_files mentioned_fnames mentioned_idents : List String)
    (h : maxMapTokens ≤ 0 ∨ other_files = []) :
    get_repo_map maxMapTokens prefixStr listingOf
      other_files mentioned_fnames mentioned_idents = "" := by
  unfold get_repo_map
  rcases h with h | h <;> simp [h]

/-- Witness for C5: a zero budget with a non-empty file set and a
pipeline that would return content still yields the empty string. -/
theorem get_repo_map_budget_disabled_witness :
    get_repo_map 0 (some "hdr") (fun _ _ _ => some "content") ["f.py"] [] [] = "" :=
  get_repo_map_budget_disabled 0 (some "hdr") (fun _ _ _ => some "content")
    ["f.py"] [] [] (Or.inl (by decide))

/-- C9: `get_history_aware_repo_map` first calls `get_repo_map` with the
mentions extracted from the message history; it returns that result
unchanged whenever it is a non-empty string, and otherwise returns the
result of a second `get_repo_map` call on the same file set with no
mentions supplied. -/
theorem get_history_aware_repo_map_retry (maxMapTokens : ℤ) (prefixStr : Option String)
    (listingOf : List String → List String → List String → Option String)
    (fileMentionsOf identMentionsOf : String → List String)
    (all_files : List String) (messages_history : String) :
    (get_repo_map maxMapTokens prefixStr listingOf all_files
        (fileMentionsOf messages_history) (identMentionsOf messages_history) ≠ "" →
      get_history_aware_repo_map maxMapTokens prefixStr listingOf
          fileMentionsOf identMentionsOf all_files messages_history =
        get_repo_map maxMapTokens prefixStr listingOf all_files
          (fileMentionsOf messages_history) (identMentionsOf messages_history)) ∧
    (get_repo_map maxMapTokens prefixStr listingOf all_files
        (fileMentionsOf messages_history) (identMentionsOf messages_history) = "" →
      get_history_aware_repo_map maxMapTokens prefixStr listingOf
          fileMentionsOf identMentionsOf all_files messages_history =
        get_repo_map maxMapTokens prefixStr listingOf all_files [] []) := by
  unfold get_history_aware_repo_map
  constructor <;> intro h <;> simp [h]

/-- Witness for C9: with a pipeline that always produces nothing, the
first call is empty and the wrapper returns the unpersonalized retry. -/
theorem get_history_aware_repo_map_retry_witness :
    get_history_aware_repo_map 1 none (fun _ _ _ => none)
        (fun _ => ["m.py"]) (fun _ => ["ident"]) ["a.py"] "hello" =
      get_repo_map 1 none (fun _ _ _ => none) ["a.py"] [] [] :=
  (get_history_aware_repo_map_retry 1 none (fun _ _ _ => none)
      (fun _ => ["m.py"]) (fun _ => ["ident"]) ["a.py"] "hello").2 (by rfl)

/-- C10 counterexample: when the ignore file does not exist
(`ignoreIsFile = false`), the indexing copy returns `false` while the
agent-skills aider copy returns `true`, so the two copies are not
extensionally equal. -/
theorem file_is_ignored_copies_differ :
    file_is_ignored_indexing
        ⟨true, false, fun s => some s, fun _ => false⟩ "a.py" ≠
      file_is_ignored_aider
        ⟨true, false, fun s => some s, fun _ => false⟩ "a.py" := by
  decide

/-- C10 (amended): the two `file_is_ignored` copies agree whenever the
ignore file exists as a regular file (and its path is truthy); when it
does not, the indexing copy returns `false` and the aider copy returns
`true` — opposite defaults. -/
theorem file_is_ignored_copies_agree (env : IgnoreEnv) (fname : String) :
    (env.ignoreTruthy = true → env.ignoreIsFile = true →
      file_is_ignored_indexing env fname = file_is_ignored_aider env fname) ∧
    (env.ignoreTruthy = false ∨ env.ignoreIsFile = false →
      file_is_ignored_indexing env fname = false ∧
        file_is_ignored_aider env fname = true) := by
  obtain ⟨tr, isf, nrm, mf⟩ := env
  constructor
  · intro h1 h2
    simp_all [file_is_ignored_indexing, file_is_ignored_aider]
  · intro h
    rcases h with h | h <;>
      simp_all [file_is_ignored_indexing, file_is_ignored_aider]

/-- Witness for C10's amended theorem: with an existing ignore file both
copies return the same verdict. -/
theorem file_is_ignored_copies_agree_witness :
    file_is_ignored_indexing ⟨true, true, fun s => some s, fun _ => true⟩ "x.py" =
      file_is_ignored_aider ⟨true, true, fun s => some s, fun _ => true⟩ "x.py" :=
  (file_is_ignored_copies_agree ⟨true, true, fun s => some s, fun _ => true⟩ "x.py").1
    rfl rfl

/-- C6: `get_tags` cache behaviour.  On a hit (stored mtime equals the
current mtime) the cached tags are returned, the cache is unchanged, and
the result does not depend on the extractor (so the extractor is not
invoked); when the file has no mtime the result is the empty list; on a
miss (no entry, or an entry with a different mtime) the extractor's
output is returned and the entry is overwritten with the observed mtime
and the fresh tags. -/
theorem get_tags_cache_correct (tagsCache : List (String × ℚ × List Tag))
    (mtimeOf : String → Option ℚ) (e1 e2 : String → String → List Tag)
    (fname rel_fname : String) :
    (∀ m d, mtimeOf fname = some m → assocFind? tagsCache fname = some (m, d) →
      get_tags tagsCache mtimeOf e1 fname rel_fname = (d, tagsCache) ∧
        get_tags tagsCache mtimeOf e1 fname rel_fname =
          get_tags tagsCache mtimeOf e2 fname rel_fname) ∧
    (mtimeOf fname = none →
      get_tags tagsCache mtimeOf e1 fname rel_fname = ([], tagsCache)) ∧
    (∀ m, mtimeOf fname = some m → (∀ d, assocFind? tagsCache fname ≠ some (m, d)) →
      get_tags tagsCache mtimeOf e1 fname rel_fname =
        (e1 fname rel_fname, assocUpd tagsCache fname (m, e1 fname rel_fname))) := by
  refine ⟨?_, ?_, ?_⟩
  · intro m d hm hc
    constructor <;> simp [get_tags, hm, hc]
  · intro hm
    simp [get_tags, hm]
  · intro m hm hc
    cases hfind : assocFind? tagsCache fname with
    | none => simp [get_tags, hm, hfind]
    | some md =>
      have hne : md.1 ≠ m := by
        intro h
        exact hc md.2 (by rw [hfind, ← h])
      obtain ⟨m', d⟩ := md
      simp only at hne
      simp [get_tags, hm, hfind, hne]

/-- Witness for C6: a concrete cache hit returns the cached tag list
with the cache unchanged. -/
theorem get_tags_cache_correct_witness :
    get_tags [("f.py", ((5 : ℚ), [⟨"f.py", "f.py", 0, "foo", "def"⟩]))]
        (fun _ => some 5) (fun _ _ => []) "f.py" "f.py" =
      ([⟨"f.py", "f.py", 0, "foo", "def"⟩],
        [("f.py", ((5 : ℚ), [⟨"f.py", "f.py", 0, "foo", "def"⟩]))]) :=
  ((get_tags_cache_correct [("f.py", ((5 : ℚ), [⟨"f.py", "f.py", 0, "foo", "def"⟩]))]
      (fun _ => some 5) (fun _ _ => []) (fun _ _ => []) "f.py" "f.py").1
    5 [⟨"f.py", "f.py", 0, "foo", "def"⟩] rfl (by simp [assocFind?])).1

/-- C7: the lexical fallback of `get_tags_raw`.  For a file that reaches
the capture-processing stage, if the query captured at least one
definition and zero references, the output is the capture-derived tags
followed by one `line = -1` reference Tag per lexical token (none when
the lexer fails, which produces no tokens); if the query captured at
least one reference, no fallback tags are emitted even when definitions
are present; if it captured no definition, no fallback runs either. -/
theorem get_tags_raw_lexical_fallback (lg query_scm code' : String)
    (capturesOf : String → String → List (String × ℤ × String))
    (lexTokens : Option (List String)) (fname rel_fname : String)
    (hcode : code' ≠ "") :
    (((capturesOf query_scm code').any
          (fun c => pyStartsWith (c.2.2) "name.definition.") = true ∧
      (capturesOf query_scm code').any
          (fun c => pyStartsWith (c.2.2) "name.reference.") = false) →
      get_tags_raw (some lg) (some query_scm) (some code') capturesOf lexTokens
          fname rel_fname =
        ((capturesOf query_scm code').filterMap (fun c =>
            if pyStartsWith (c.2.2) "name.definition." then
              some (captureTag fname rel_fname c "def")
            else if pyStartsWith (c.2.2) "name.reference." then
              some (captureTag fname rel_fname c "ref")
            else none)) ++
          (lexTokens.getD []).map (fun tok =>
            { rel_fname := rel_fname, fname := fname, line := -1,
              name := tok, kind := "ref" : Tag })) ∧
    ((capturesOf query_scm code').any
          (fun c => pyStartsWith (c.2.2) "name.reference.") = true →
      get_tags_raw (some lg) (some query_scm) (some code') capturesOf lexTokens
          fname rel_fname =
        (capturesOf query_scm code').filterMap (fun c =>
            if pyStartsWith (c.2.2) "name.definition." then
              some (captureTag fname rel_fname c "def")
            else if pyStartsWith (c.2.2) "name.reference." then
              some (captureTag fname rel_fname c "ref")
            else none)) ∧
    ((capturesOf query_scm code').any
          (fun c => pyStartsWith (c.2.2) "name.definition.") = false →
      get_tags_raw (some lg) (some query_scm) (some code') capturesOf lexTokens
          fname rel_fname =
        (capturesOf query_scm code').filterMap (fun c =>
            if pyStartsWith (c.2.2) "name.definition." then
              some (captureTag fname rel_fname c "def")
            else if pyStartsWith (c.2.2) "name.reference." then
              some (captureTag fname rel_fname c "ref")
            else none)) := by
  refine ⟨?_, ?_, ?_⟩
  · rintro ⟨hdef, href⟩
    cases lexTokens with
    | none => simp [get_tags_raw, hcode, hdef, href]
    | some toks => simp [get_tags_raw, hcode, hdef, href]
  · intro href
    simp [get_tags_raw, hcode, href]
  · intro hdef
    cases hany : (capturesOf query_scm code').any
        (fun c => pyStartsWith (c.2.2) "name.reference.") with
    | true => simp [get_tags_raw, hcode, hdef, hany]
    | false => simp [get_tags_raw, hcode, hdef, hany]

/-- Witness for C7: one captured definition and no captured reference
triggers the fallback, emitting a `line = -1` reference Tag per lexical
token. -/
theorem get_tags_raw_lexical_fallback_witness :
    get_tags_raw (some "python") (some "(query)") (some "def foo(): bar")
        (fun _ _ => [("foo", 0, "name.definition.function")])
        (some ["foo", "bar"]) "f.py" "f.py" =
      [⟨"f.py", "f.py", 0, "foo", "def"⟩,
       ⟨"f.py", "f.py", -1, "foo", "ref"⟩,
       ⟨"f.py", "f.py", -1, "bar", "ref"⟩] := by
  have h := (get_tags_raw_lexical_fallback "python" "(query)" "def foo(): bar"
      (fun _ _ => [("foo", 0, "name.definition.function")])
      (some ["foo", "bar"]) "f.py" "f.py" (by decide)).1 (by constructor <;> rfl)
  rw [h]
  rfl

/-- C2 (code evaluated at the failing input): with root `/repo`, input
file set `{/repo/a.py}` (absolute paths, as supplied by
`get_all_absolute_files`), and mentioned files `{a.py}` (relative paths,
as produced by `get_file_mentions`), the input file's relative path is
mentioned, yet `get_ranked_tags` records no personalization entry — the
membership test at repomap.py line 275 is `fname in mentioned_fnames`
with the absolute path — and the ranking is then invoked with no
personalization arguments, contradicting the claimed
`personalization[rel] = 10 / |file_set|` assignment. -/
theorem get_ranked_tags_personalization_dead :
    ((fun _ => "a.py") : String → String) "/repo/a.py" ∈ ["a.py"] ∧
    personalizationOf (fun _ => true) (fun _ => "a.py") (fun _ _ => [])
        ["/repo/a.py"] ["a.py"] = [] ∧
    persArgsOf (personalizationOf (fun _ => true) (fun _ => "a.py") (fun _ _ => [])
        ["/repo/a.py"] ["a.py"]) = none := by
  refine ⟨by decide, ?_, ?_⟩ <;>
    simp +decide [personalizationOf, sortedSet, pySet, collectTags, collectFileTags,
      persArgsOf, List.mergeSort]

/-- C3 counterexample: one file `a.py` both defining and referencing the
identifier `x` produces the single self-loop edge `a.py → a.py`; the
reference multigraph has one node in both runs, so pagerank necessarily
assigns it the whole mass `1` with or without the mention boost (the
model passes that value as the rank function for both computations).
The accumulated rank of `(a.py, x)` is `rank * (10*1)/(10*1) = 1` with
the boost and `rank * 1/1 = 1` without: mentioning `x` does not strictly
increase it. -/
theorem mention_boost_not_strict :
    getRankedTagsAccRank (fun _ => true) (fun s => s)
        (fun _ _ => [⟨"a.py", "a.py", 0, "x", "def"⟩, ⟨"a.py", "a.py", 1, "x", "ref"⟩])
        (fun _ _ _ => 1) ["a.py"] [] ["x"] "a.py" "x" = 1 ∧
    getRankedTagsAccRank (fun _ => true) (fun s => s)
        (fun _ _ => [⟨"a.py", "a.py", 0, "x", "def"⟩, ⟨"a.py", "a.py", 1, "x", "ref"⟩])
        (fun _ _ _ => 1) ["a.py"] [] [] "a.py" "x" = 1 ∧
    ¬ (getRankedTagsAccRank (fun _ => true) (fun s => s)
        (fun _ _ => [⟨"a.py", "a.py", 0, "x", "def"⟩, ⟨"a.py", "a.py", 1, "x", "ref"⟩])
        (fun _ _ _ => 1) ["a.py"] [] [] "a.py" "x" <
      getRankedTagsAccRank (fun _ => true) (fun s => s)
        (fun _ _ => [⟨"a.py", "a.py", 0, "x", "def"⟩, ⟨"a.py", "a.py", 1, "x", "ref"⟩])
        (fun _ _ _ => 1) ["a.py"] [] ["x"] "a.py" "x") := by
  refine ⟨?_, ?_, ?_⟩ <;>
    simp +decide [getRankedTagsAccRank, sortedSet, pySet, collectTags,
      collectFileTags, edgesOf, nodesOf, counterItems, counterItems.dictCount,
      assocFind?, dictAddToSet, dictAppend, dictAddTag, dictAccum,
      rankedDefinitions, outEdges, outWeight, accumulatedRankOf, persArgsOf,
      List.mergeSort, List.merge]

/-! ### Infrastructure for the mention-boost monotonicity theorem -/

theorem scaleEdge_src (x : String) (e : Edge) : (scaleEdge x e).src = e.src := by
  unfold scaleEdge; split <;> rfl

theorem scaleEdge_dst (x : String) (e : Edge) : (scaleEdge x e).dst = e.dst := by
  unfold scaleEdge; split <;> rfl

theorem scaleEdge_ident (x : String) (e : Edge) : (scaleEdge x e).ident = e.ident := by
  unfold scaleEdge; split <;> rfl

theorem dictAccum_lookupD_same {κ : Type} [DecidableEq κ]
    (acc : List (κ × ℚ)) (k : κ) (q : ℚ) :
    (assocFind? (dictAccum acc k q) k).getD 0 = (assocFind? acc k).getD 0 + q := by
  induction acc with
  | nil => simp [dictAccum, assocFind?]
  | cons p rest ih =>
      obtain ⟨k', v⟩ := p
      by_cases h : k' = k
      · subst h; simp [dictAccum, assocFind?]
      · simp [dictAccum, assocFind?, h, ih]

theorem dictAccum_lookupD_other {κ : Type} [DecidableEq κ]
    (acc : List (κ × ℚ)) (k k' : κ) (q : ℚ) (h : k' ≠ k) :
    assocFind? (dictAccum acc k q) k' = assocFind? acc k' := by
  induction acc with
  | nil =>
      have h2 : k ≠ k' := Ne.symm h
      simp [dictAccum, assocFind?, h2]
  | cons p rest ih =>
      obtain ⟨a, v⟩ := p
      by_cases ha : a = k
      · subst ha
        have h2 : a ≠ k' := Ne.symm h
        simp [dictAccum, assocFind?, h2]
      · by_cases ha' : a = k'
        · subst ha'
          simp [dictAccum, assocFind?, ha]
        · simp [dictAccum, assocFind?, ha, ha', ih]

/-- Parallel fold over the same edge list for the two runs: if the key
maps agree, and contributions to the tracked key are pointwise ordered,
the tracked accumulator entry stays ordered. -/
theorem accumPair_fold (k : String × String) (key1 key10 : Edge → String × String)
    (c1 c10 : Edge → ℚ) :
    ∀ (S : List Edge) (acc1 acc10 : List ((String × String) × ℚ)),
      (∀ e ∈ S, key1 e = key10 e) →
      (∀ e ∈ S, key1 e = k → c1 e ≤ c10 e) →
      (assocFind? acc1 k).getD 0 ≤ (assocFind? acc10 k).getD 0 →
      (assocFind? (S.foldl (fun a e => dictAccum a (key1 e) (c1 e)) acc1) k).getD 0 ≤
        (assocFind? (S.foldl (fun a e => dictAccum a (key10 e) (c10 e)) acc10) k).getD 0 := by
  intro S
  induction S with
  | nil => intro acc1 acc10 _ _ h; simpa using h
  | cons e rest ih =>
      intro acc1 acc10 hkey hc hinv
      simp only [List.foldl_cons]
      refine ih _ _ (fun e' he' => hkey e' (List.mem_cons_of_mem _ he'))
        (fun e' he' hk => hc e' (List.mem_cons_of_mem _ he') hk) ?_
      by_cases hek : key1 e = k
      · have hek10 : key10 e = k := by
          rw [← hkey e (List.mem_cons_self _ _)]; exact hek
        rw [hek, hek10, dictAccum_lookupD_same, dictAccum_lookupD_same]
        exact add_le_add hinv (hc e (List.mem_cons_self _ _) hek)
      · have hek10 : key10 e ≠ k := by
          rw [← hkey e (List.mem_cons_self _ _)]; exact hek
        rw [show assocFind? (dictAccum acc1 (key1 e) (c1 e)) k = assocFind? acc1 k from
              dictAccum_lookupD_other _ _ _ _ (Ne.symm hek),
            show assocFind? (dictAccum acc10 (key10 e) (c10 e)) k = assocFind? acc10 k from
              dictAccum_lookupD_other _ _ _ _ (Ne.symm hek10)]
        exact hinv

/-- Parallel fold over the node list for the two runs. -/
theorem nodesPair_fold (k : String × String)
    (step1 step10 : List ((String × String) × ℚ) → String →
      List ((String × String) × ℚ))
    (h : ∀ src acc1 acc10,
      (assocFind? acc1 k).getD 0 ≤ (assocFind? acc10 k).getD 0 →
      (assocFind? (step1 acc1 src) k).getD 0 ≤ (assocFind? (step10 acc10 src) k).getD 0) :
    ∀ (nodes : List String) (acc1 acc10 : List ((String × String) × ℚ)),
      (assocFind? acc1 k).getD 0 ≤ (assocFind? acc10 k).getD 0 →
      (assocFind? (nodes.foldl step1 acc1) k).getD 0 ≤
        (assocFind? (nodes.foldl step10 acc10) k).getD 0 := by
  intro nodes
  induction nodes with
  | nil => intro acc1 acc10 hinv; simpa using hinv
  | cons src rest ih =>
      intro acc1 acc10 hinv
      simp only [List.foldl_cons]
      exact ih _ _ (h src acc1 acc10 hinv)

/-- Generic push of a map through `flatMap` when each fibre maps
pointwise. -/
theorem flatMap_map_eq {α β : Type} (l : List α) (f1 f10 : α → List β) (g : β → β)
    (h : ∀ a ∈ l, f10 a = (f1 a).map g) : l.flatMap f10 = (l.flatMap f1).map g := by
  induction l with
  | nil => simp
  | cons a rest ih =>
      simp only [List.flatMap_cons, List.map_append]
      rw [h a (List.mem_cons_self _ _), ih (fun a' ha' => h a' (List.mem_cons_of_mem _ ha'))]

/-- Adding an unmentioned identifier to `mentioned_idents` multiplies
exactly that identifier's edge weights by 10. -/
theorem edgesOf_mention (defines references : List (String × List String))
    (mi : List String) (x : String) (hx : x ∉ mi) :
    edgesOf defines references (x :: mi) =
      (edgesOf defines references mi).map (scaleEdge x) := by
  unfold edgesOf
  refine flatMap_map_eq _ _ _ _ ?_
  intro ident _
  dsimp only
  by_cases hix : ident = x
  · subst hix
    have h10 : (if ident ∈ ident :: mi then (10 : ℚ) else 1) = 10 := by simp
    have h1 : (if ident ∈ mi then (10 : ℚ) else 1) = 1 := by simp [hx]
    rw [h10, h1]
    refine flatMap_map_eq _ _ _ _ ?_
    intro rn _
    rw [List.map_map]
    congr 1
    funext d
    simp [scaleEdge]
  · have hcond : (if ident ∈ x :: mi then (10 : ℚ) else 1) =
        (if ident ∈ mi then 10 else 1) := by
      simp [List.mem_cons, hix]
    rw [hcond]
    refine flatMap_map_eq _ _ _ _ ?_
    intro rn _
    rw [List.map_map]
    congr 1
    funext d
    simp [scaleEdge, hix]

theorem counterItems_dictCount_pos (x : String) :
    ∀ (acc : List (String × ℕ)), (∀ q ∈ acc, 0 < q.2) →
      ∀ p ∈ counterItems.dictCount acc x, 0 < p.2 := by
  intro acc
  induction acc with
  | nil =>
      intro _ p hp
      simp only [counterItems.dictCount, List.mem_singleton] at hp
      subst hp; exact Nat.one_pos
  | cons q rest ih =>
      intro hacc p hp
      obtain ⟨k, n⟩ := q
      by_cases hk : k = x
      · simp only [counterItems.dictCount, if_pos hk, List.mem_cons] at hp
        rcases hp with hp | hp
        · subst hp; exact Nat.succ_pos n
        · exact hacc p (List.mem_cons_of_mem _ hp)
      · simp only [counterItems.dictCount, if_neg hk, List.mem_cons] at hp
        rcases hp with hp | hp
        · subst hp; exact hacc (k, n) (List.mem_cons_self _ _)
        · exact ih (fun q' hq' => hacc q' (List.mem_cons_of_mem _ hq')) p hp

theorem counterItems_pos (xs : List String) :
    ∀ p ∈ counterItems xs, 0 < p.2 := by
  unfold counterItems
  suffices h : ∀ (l : List String) (acc : List (String × ℕ)), (∀ q ∈ acc, 0 < q.2) →
      ∀ p ∈ l.foldl (fun a x => counterItems.dictCount a x) acc, 0 < p.2 by
    exact h xs [] (by simp)
  intro l
  induction l with
  | nil => intro acc hacc p hp; exact hacc p hp
  | cons y rest ih =>
      intro acc hacc p hp
      simp only [List.foldl_cons] at hp
      exact ih _ (counterItems_dictCount_pos y acc hacc) p hp

/-- Every edge built by `get_ranked_tags` carries a positive weight
(`mul ∈ {1, 10}` times a Counter multiplicity `≥ 1`). -/
theorem edgesOf_weight_pos (defines references : List (String × List String))
    (mi : List String) : ∀ e ∈ edgesOf defines references mi, 0 < e.weight := by
  intro e he
  unfold edgesOf at he
  simp only [List.mem_flatMap, List.mem_map] at he
  obtain ⟨ident, _, rn, hrn, d, _, rfl⟩ := he
  have hn : 0 < rn.2 := counterItems_pos _ rn hrn
  have hmul : (0 : ℚ) < if ident ∈ mi then 10 else 1 := by split <;> norm_num
  have hcast : (0 : ℚ) < (rn.2 : ℚ) := by exact_mod_cast hn
  exact mul_pos hmul hcast

theorem sum_weight_split (x : String) (S : List Edge) :
    (S.map Edge.weight).sum =
      ((S.filter (fun e => e.ident = x)).map Edge.weight).sum +
        ((S.filter (fun e => ¬ (e.ident = x))).map Edge.weight).sum := by
  induction S with
  | nil => simp
  | cons e rest ih =>
      by_cases h : e.ident = x
      · have hp : List.filter (fun e' => e'.ident = x) (e :: rest) =
            e :: List.filter (fun e' => e'.ident = x) rest := by
          simp [List.filter_cons, h]
        have hn : List.filter (fun e' => ¬ (e'.ident = x)) (e :: rest) =
            List.filter (fun e' => ¬ (e'.ident = x)) rest := by
          simp [List.filter_cons, h]
        rw [List.map_cons, List.sum_cons, ih, hp, hn, List.map_cons, List.sum_cons]
        ring
      · have hp : List.filter (fun e' => e'.ident = x) (e :: rest) =
            List.filter (fun e' => e'.ident = x) rest := by
          simp [List.filter_cons, h]
        have hn : List.filter (fun e' => ¬ (e'.ident = x)) (e :: rest) =
            e :: List.filter (fun e' => ¬ (e'.ident = x)) rest := by
          simp [List.filter_cons, h]
        rw [List.map_cons, List.sum_cons, ih, hp, hn, List.map_cons, List.sum_cons]
        ring

theorem sum_weight_scale (x : String) (S : List Edge) :
    (S.map (fun e => (scaleEdge x e).weight)).sum =
      10 * ((S.filter (fun e => e.ident = x)).map Edge.weight).sum +
        ((S.filter (fun e => ¬ (e.ident = x))).map Edge.weight).sum := by
  induction S with
  | nil => simp
  | cons e rest ih =>
      by_cases h : e.ident = x
      · have hsw : (scaleEdge x e).weight = 10 * e.weight := by
          unfold scaleEdge; rw [if_pos h]
        have hp : List.filter (fun e' => e'.ident = x) (e :: rest) =
            e :: List.filter (fun e' => e'.ident = x) rest := by
          simp [List.filter_cons, h]
        have hn : List.filter (fun e' => ¬ (e'.ident = x)) (e :: rest) =
            List.filter (fun e' => ¬ (e'.ident = x)) rest := by
          simp [List.filter_cons, h]
        rw [List.map_cons, List.sum_cons, hsw, ih, hp, hn, List.map_cons, List.sum_cons]
        ring
      · have hsw : (scaleEdge x e).weight = e.weight := by
          unfold scaleEdge; rw [if_neg h]
        have hp : List.filter (fun e' => e'.ident = x) (e :: rest) =
            List.filter (fun e' => e'.ident = x) rest := by
          simp [List.filter_cons, h]
        have hn : List.filter (fun e' => ¬ (e'.ident = x)) (e :: rest) =
            e :: List.filter (fun e' => ¬ (e'.ident = x)) rest := by
          simp [List.filter_cons, h]
        rw [List.map_cons, List.sum_cons, hsw, ih, hp, hn, List.map_cons, List.sum_cons]
        ring

theorem outEdges_map_scale (x : String) (E : List Edge) (src : String) :
    outEdges (E.map (scaleEdge x)) src = (outEdges E src).map (scaleEdge x) := by
  unfold outEdges
  rw [List.filter_map]
  congr 1
  refine List.filter_congr ?_
  intro e _
  simp [Function.comp, scaleEdge_src]

theorem outWeight_split (x : String) (E : List Edge) (src : String) :
    outWeight E src =
      (((outEdges E src).filter (fun e => e.ident = x)).map Edge.weight).sum +
        (((outEdges E src).filter (fun e => ¬ (e.ident = x))).map Edge.weight).sum := by
  unfold outWeight
  exact sum_weight_split x (outEdges E src)

theorem outWeight_scale (x : String) (E : List Edge) (src : String) :
    outWeight (E.map (scaleEdge x)) src =
      10 * (((outEdges E src).filter (fun e => e.ident = x)).map Edge.weight).sum +
        (((outEdges E src).filter (fun e => ¬ (e.ident = x))).map Edge.weight).sum := by
  unfold outWeight
  rw [outEdges_map_scale, List.map_map]
  have hcomp : Edge.weight ∘ scaleEdge x = fun e => (scaleEdge x e).weight := rfl
  rw [hcomp]
  exact sum_weight_scale x (outEdges E src)

/-- The share of a boosted edge in its source's redistributed rank does
not shrink: `p*w/(Wx+Wo) ≤ p*(10w)/(10Wx+Wo)` for nonnegative rank `p`,
positive boosted-identifier weight `w ≤ Wx` and nonnegative
other-identifier weight `Wo`. -/
theorem boost_frac_le (p w wx wo : ℚ) (hp : 0 ≤ p) (hw : 0 < w)
    (hwx : w ≤ wx) (hwo : 0 ≤ wo) :
    p * w / (wx + wo) ≤ p * (10 * w) / (10 * wx + wo) := by
  have hWx : 0 < wx := lt_of_lt_of_le hw hwx
  have hd1 : 0 < wx + wo := by linarith
  have hd2 : 0 < 10 * wx + wo := by linarith
  rw [div_le_div_iff₀ hd1 hd2]
  nlinarith [mul_nonneg (mul_nonneg hp hw.le) hwo]

theorem nodesOf_map_scale (x : String) (E : List Edge) :
    nodesOf (E.map (scaleEdge x)) = nodesOf E := by
  unfold nodesOf
  congr 1
  rw [List.flatMap_map]
  simp [scaleEdge_src, scaleEdge_dst]

/-- C3 (amended): mentioning an identifier multiplies its edge weights by
10; with the node ranks held fixed and nonnegative (the ranks come from
the external pagerank, and the comparison uses the same rank values for
both runs), the accumulated rank of every `(file, identifier)` pair for
that identifier computed by the redistribution step of `get_ranked_tags`
does not decrease — the increase need not be strict. -/
theorem mention_boost_monotone (defines references : List (String × List String))
    (mi : List String) (x : String) (pr : String → ℚ) (dst : String)
    (hx : x ∉ mi) (hpr : ∀ s, 0 ≤ pr s) :
    accumulatedRankOf (edgesOf defines references mi)
        (nodesOf (edgesOf defines references mi)) pr dst x ≤
      accumulatedRankOf (edgesOf defines references (x :: mi))
        (nodesOf (edgesOf defines references (x :: mi))) pr dst x := by
  have h10 : edgesOf defines references (x :: mi) =
      (edgesOf defines references mi).map (scaleEdge x) :=
    edgesOf_mention defines references mi x hx
  rw [h10, nodesOf_map_scale]
  unfold accumulatedRankOf rankedDefinitions
  simp only [outEdges_map_scale, List.foldl_map]
  refine nodesPair_fold (dst, x) _ _ ?_
    (nodesOf (edgesOf defines references mi)) [] [] (le_refl _)
  intro src acc1 acc10 hinv
  refine accumPair_fold (dst, x)
      (fun e => (e.dst, e.ident))
      (fun e => ((scaleEdge x e).dst, (scaleEdge x e).ident))
      (fun e => pr src * e.weight / outWeight (edgesOf defines references mi) src)
      (fun e => pr src * (scaleEdge x e).weight /
        outWeight ((edgesOf defines references mi).map (scaleEdge x)) src)
      (outEdges (edgesOf defines references mi) src) acc1 acc10 ?_ ?_ hinv
  · intro e _
    simp [scaleEdge_dst, scaleEdge_ident]
  · intro e he hk
    dsimp only
    have hident : e.ident = x := congrArg Prod.snd hk
    have hsw : (scaleEdge x e).weight = 10 * e.weight := by
      unfold scaleEdge
      rw [if_pos hident]
    have hmemE : e ∈ edgesOf defines references mi := (List.mem_filter.mp he).1
    have hw : 0 < e.weight := edgesOf_weight_pos defines references mi e hmemE
    have hnn : ∀ w ∈ ((outEdges (edgesOf defines references mi) src).filter
        (fun e' => e'.ident = x)).map Edge.weight, 0 ≤ w := by
      intro w hwmem
      obtain ⟨e', he', rfl⟩ := List.mem_map.mp hwmem
      have : e' ∈ edgesOf defines references mi :=
        (List.mem_filter.mp (List.mem_filter.mp he').1).1
      exact (edgesOf_weight_pos defines references mi e' this).le
    have hwx : e.weight ≤ (((outEdges (edgesOf defines references mi) src).filter
        (fun e' => e'.ident = x)).map Edge.weight).sum := by
      refine List.single_le_sum hnn _ ?_
      exact List.mem_map_of_mem _ (List.mem_filter.mpr ⟨he, by simp [hident]⟩)
    have hwo : 0 ≤ (((outEdges (edgesOf defines references mi) src).filter
        (fun e' => ¬ (e'.ident = x))).map Edge.weight).sum := by
      refine List.sum_nonneg ?_
      intro w hwmem
      obtain ⟨e', he', rfl⟩ := List.mem_map.mp hwmem
      have : e' ∈ edgesOf defines references mi :=
        (List.mem_filter.mp (List.mem_filter.mp he').1).1
      exact (edgesOf_weight_pos defines references mi e' this).le
    rw [hsw, outWeight_scale x _ src, outWeight_split x _ src]
    exact boost_frac_le (pr src) e.weight _ _ (hpr src) hw hwx hwo

/-- Witness for C3's amended theorem at a concrete one-file graph. -/
theorem mention_boost_monotone_witness :
    accumulatedRankOf (edgesOf [("x", ["a.py"])] [("x", ["a.py"])] [])
        (nodesOf (edgesOf [("x", ["a.py"])] [("x", ["a.py"])] []))
        (fun _ => 1) "a.py" "x" ≤
      accumulatedRankOf (edgesOf [("x", ["a.py"])] [("x", ["a.py"])] ["x"])
        (nodesOf (edgesOf [("x", ["a.py"])] [("x", ["a.py"])] ["x"]))
        (fun _ => 1) "a.py" "x" :=
  mention_boost_monotone [("x", ["a.py"])] [("x", ["a.py"])] [] "x"
    (fun _ => 1) "a.py" (by decide) (fun _ => by norm_num)

/-! ### Budget-search theorems (C4) -/

/-- C4 counterexample: with the fixed ranked-tag list of length 4 and the
fixed token-estimation function taking values 0, 50, 150, 74, 200 on the
prefixes of lengths 0..4 (token estimates of renderings need not be
monotone in prefix length), raising `max_tokens` from 75 to 100 moves
the selected prefix length from 3 down to 1: the larger budget starts
its probe at 4, rules out the upper half, and settles on the prefix of
length 1, never revisiting length 3. -/
theorem budget_search_not_monotone :
    selectedPrefixLen (fun m => if m = 0 then (0 : ℚ) else if m = 1 then 50
        else if m = 2 then 150 else if m = 3 then 74
        else if m = 4 then 200 else 0) 4 75 = some 3 ∧
    selectedPrefixLen (fun m => if m = 0 then (0 : ℚ) else if m = 1 then 50
        else if m = 2 then 150 else if m = 3 then 74
        else if m = 4 then 200 else 0) 4 100 = some 1 ∧
    ¬ ((3 : ℤ) ≤ 1) := by
  refine ⟨by decide, by decide, by decide⟩

theorem fdiv_half_bounds (a b : ℤ) (h : a ≤ b) :
    a ≤ Int.fdiv (a + b) 2 ∧ Int.fdiv (a + b) 2 ≤ b := by
  rw [Int.fdiv_eq_ediv _ (by norm_num)]
  omega

theorem budgetSearchLoop_zero (tok : ℤ → ℚ) (mt l u m : ℤ) (b : Option (ℤ × ℚ)) :
    budgetSearchLoop 0 tok mt l u m b = b := rfl

theorem budgetSearchLoop_succ_stop (f : ℕ) (tok : ℤ → ℚ) (mt l u m : ℤ)
    (b : Option (ℤ × ℚ)) (h : ¬ l ≤ u) :
    budgetSearchLoop (f + 1) tok mt l u m b = b := by
  unfold budgetSearchLoop
  rw [if_neg h]

theorem budgetSearchLoop_succ_good (f : ℕ) (tok : ℤ → ℚ) (mt l u m : ℤ)
    (b : Option (ℤ × ℚ)) (hl : l ≤ u) (ht : tok m < (mt : ℚ)) :
    budgetSearchLoop (f + 1) tok mt l u m b =
      budgetSearchLoop f tok mt (m + 1) u (Int.fdiv (m + 1 + u) 2)
        (if bestTokens b < tok m then some (m, tok m) else b) := by
  conv_lhs => rw [budgetSearchLoop]
  rw [if_pos hl]
  simp [ht]

theorem budgetSearchLoop_succ_bad (f : ℕ) (tok : ℤ → ℚ) (mt l u m : ℤ)
    (b : Option (ℤ × ℚ)) (hl : l ≤ u) (ht : ¬ tok m < (mt : ℚ)) :
    budgetSearchLoop (f + 1) tok mt l u m b =
      budgetSearchLoop f tok mt l (m - 1) (Int.fdiv (l + (m - 1)) 2) b := by
  conv_lhs => rw [budgetSearchLoop]
  rw [if_pos hl]
  simp [ht]

/-- Loop characterization for a token estimate strictly increasing on
nonnegative prefix lengths: the loop maintains a boundary invariant —
everything strictly below `lower` fits the budget, everything above
`upper` does not, and `best` (if set) records exactly the probe
`lower - 1` — and its result is described by a boundary `L`. -/
theorem budgetSearchLoop_char (tok : ℤ → ℚ) (mt N : ℤ)
    (hmono : ∀ i j : ℤ, 0 ≤ i → i < j → tok i < tok j) :
    ∀ (fuel : ℕ) (lower upper middle : ℤ) (best : Option (ℤ × ℚ)),
      (upper + 1 - lower).toNat ≤ fuel →
      0 ≤ lower → lower ≤ N + 1 → upper ≤ N →
      (lower ≤ upper → lower ≤ middle ∧ middle ≤ upper) →
      (∀ k : ℤ, 0 ≤ k → k < lower → tok k < (mt : ℚ)) →
      (∀ k : ℤ, upper < k → k ≤ N → ¬ tok k < (mt : ℚ)) →
      (best = none → ∀ k : ℤ, 0 ≤ k → k < lower → tok k ≤ 0) →
      (∀ b t, best = some (b, t) → t = tok b ∧ b = lower - 1 ∧ 0 ≤ b ∧ 0 < t) →
      ∃ L : ℤ, 0 ≤ L ∧ L ≤ N + 1 ∧
        (∀ k : ℤ, 0 ≤ k → k < L → tok k < (mt : ℚ)) ∧
        (∀ k : ℤ, L ≤ k → k ≤ N → ¬ tok k < (mt : ℚ)) ∧
        (budgetSearchLoop fuel tok mt lower upper middle best = none →
          ∀ k : ℤ, 0 ≤ k → k < L → tok k ≤ 0) ∧
        (∀ b t, budgetSearchLoop fuel tok mt lower upper middle best = some (b, t) →
          t = tok b ∧ b = L - 1 ∧ 0 ≤ b ∧ 0 < t) := by
  intro fuel
  induction fuel with
  | zero =>
      intro lower upper middle best hfuel h0 hN hu hmid hgood hbad hbn hbs
      refine ⟨lower, h0, hN, hgood, ?_, ?_, ?_⟩
      · intro k hk hkN
        exact hbad k (by omega) hkN
      · intro hres
        rw [budgetSearchLoop_zero] at hres
        exact hbn hres
      · intro b t hres
        rw [budgetSearchLoop_zero] at hres
        exact hbs b t hres
  | succ f ih =>
      intro lower upper middle best hfuel h0 hN hu hmid hgood hbad hbn hbs
      by_cases hlu : lower ≤ upper
      · obtain ⟨hlm, hmu⟩ := hmid hlu
        have h0m : 0 ≤ middle := le_trans h0 hlm
        by_cases ht : tok middle < (mt : ℚ)
        · -- fitting probe: move the lower bound up, possibly record best
          rw [budgetSearchLoop_succ_good f tok mt lower upper middle best hlu ht]
          refine ih (middle + 1) upper (Int.fdiv (middle + 1 + upper) 2) _
            (by omega) (by omega) (by omega) hu
            ?_ ?_ hbad ?_ ?_
          · intro h2
            exact fdiv_half_bounds (middle + 1) upper h2
          · intro k hk hkm
            rcases lt_or_ge k middle with hkm' | hkm'
            · exact lt_trans (hmono k middle hk hkm') ht
            · have hke : k = middle := by omega
              rw [hke]; exact ht
          · intro hbnone
            by_cases hb : bestTokens best < tok middle
            · rw [if_pos hb] at hbnone
              simp at hbnone
            · rw [if_neg hb] at hbnone
              have hb0 : bestTokens best = 0 := by rw [hbnone]; rfl
              have htm : tok middle ≤ 0 := by
                rw [hb0] at hb
                exact not_lt.mp hb
              intro k hk hkm
              rcases lt_or_ge k middle with hkm' | hkm'
              · exact le_of_lt (lt_of_lt_of_le (hmono k middle hk hkm') htm)
              · have hke : k = middle := by omega
                rw [hke]; exact htm
          · intro b t hbsome
            by_cases hb : bestTokens best < tok middle
            · rw [if_pos hb] at hbsome
              have h0best : 0 ≤ bestTokens best := by
                cases hbest : best with
                | none => simp [bestTokens]
                | some p =>
                    obtain ⟨b0, t0⟩ := p
                    have h4 := (hbs b0 t0 hbest).2.2.2
                    simpa [bestTokens] using h4.le
              obtain ⟨hb', ht'⟩ : middle = b ∧ tok middle = t := by
                simpa using hbsome
              subst hb'
              subst ht'
              exact ⟨rfl, by omega, h0m, lt_of_le_of_lt h0best hb⟩
            · rw [if_neg hb] at hbsome
              obtain ⟨he1, he2, he3, he4⟩ := hbs b t hbsome
              exfalso
              have hblt : b < middle := by omega
              have : tok b < tok middle := hmono b middle he3 hblt
              have hbt : bestTokens best = t := by rw [hbsome]; rfl
              rw [hbt, he1] at hb
              exact hb this
        · -- non-fitting probe: move the upper bound down
          rw [budgetSearchLoop_succ_bad f tok mt lower upper middle best hlu ht]
          refine ih lower (middle - 1) (Int.fdiv (lower + (middle - 1)) 2) best
            (by omega) h0 hN (by omega) ?_ hgood ?_ hbn hbs
          · intro h2
            exact fdiv_half_bounds lower (middle - 1) h2
          · intro k hk hkN
            by_cases hke : k = middle
            · rw [hke]; exact ht
            · rcases lt_or_ge upper k with hku | hku
              · exact hbad k hku hkN
              · intro habs
                exact ht (lt_trans (hmono middle k h0m (by omega)) habs)
      · rw [budgetSearchLoop_succ_stop f tok mt lower upper middle best hlu]
        refine ⟨lower, h0, hN, hgood, ?_, ?_, ?_⟩
        · intro k hk hkN
          exact hbad k (by omega) hkN
        · intro hres
          exact hbn hres
        · intro b t hres
          exact hbs b t hres

/-- C4 (amended): for a fixed ranked-tag list and a token-estimation
function that is strictly increasing on prefix lengths, increasing a
nonnegative `max_tokens` never decreases the prefix length selected by
the budget search of `get_ranked_tags_map_uncached` (when the smaller
budget selects one at all).  Without the monotonicity assumption the
property fails (see the counterexample). -/
theorem budget_search_monotone (tok : ℤ → ℚ) (N : ℕ) (mt1 mt2 : ℤ)
    (hmono : ∀ i j : ℤ, 0 ≤ i → i < j → tok i < tok j)
    (hmt0 : 0 ≤ mt1) (hmt : mt1 ≤ mt2) (a : ℤ)
    (ha : selectedPrefixLen tok N mt1 = some a) :
    ∃ b : ℤ, selectedPrefixLen tok N mt2 = some b ∧ a ≤ b := by
  have hinit : ∀ mt : ℤ, 0 ≤ mt →
      ∃ L : ℤ, 0 ≤ L ∧ L ≤ (N : ℤ) + 1 ∧
        (∀ k : ℤ, 0 ≤ k → k < L → tok k < (mt : ℚ)) ∧
        (∀ k : ℤ, L ≤ k → k ≤ (N : ℤ) → ¬ tok k < (mt : ℚ)) ∧
        (budget_search tok N mt = none → ∀ k : ℤ, 0 ≤ k → k < L → tok k ≤ 0) ∧
        (∀ b t, budget_search tok N mt = some (b, t) →
          t = tok b ∧ b = L - 1 ∧ 0 ≤ b ∧ 0 < t) := by
    intro mt hmt'
    have hfd : 0 ≤ Int.fdiv mt 25 := by
      rw [Int.fdiv_eq_ediv _ (by norm_num)]
      omega
    have h := budgetSearchLoop_char tok mt (N : ℤ) hmono (N + 2) 0 (N : ℤ)
      (min (Int.fdiv mt 25) (N : ℤ)) none (by omega) (by omega) (by omega) (by omega)
      (fun _ => ⟨le_min hfd (by omega), min_le_right _ _⟩)
      (fun k hk hk0 => absurd hk0 (by omega))
      (fun k h1 h2 => absurd h1 (by omega))
      (fun _ k hk hk0 => absurd hk0 (by omega))
      (fun b t hbt => by simp at hbt)
    simpa [budget_search] using h
  obtain ⟨L1, hL10, hL1N, hg1, hreg1, hn1, hs1⟩ := hinit mt1 hmt0
  obtain ⟨L2, hL20, hL2N, hg2, hreg2, hn2, hs2⟩ := hinit mt2 (le_trans hmt0 hmt)
  obtain ⟨p, hp⟩ : ∃ p, budget_search tok N mt1 = some p := by
    cases hres : budget_search tok N mt1 with
    | none => simp [selectedPrefixLen, hres] at ha
    | some p => exact ⟨p, rfl⟩
  obtain ⟨b1, t1⟩ := p
  have ha' : b1 = a := by
    simpa [selectedPrefixLen, hp] using ha
  obtain ⟨ht1, hb1L, h0b1, h0t1⟩ := hs1 b1 t1 hp
  have hLL : L1 ≤ L2 := by
    by_contra hcon
    push_neg at hcon
    have h1 : tok L2 < (mt1 : ℚ) := hg1 L2 hL20 hcon
    have h2 : ¬ tok L2 < (mt2 : ℚ) := hreg2 L2 (le_refl _) (by omega)
    exact h2 (lt_of_lt_of_le h1 (by exact_mod_cast hmt))
  cases hres2 : budget_search tok N mt2 with
  | none =>
      exfalso
      have hle := hn2 hres2 b1 h0b1 (by omega)
      rw [ht1] at h0t1
      linarith
  | some p2 =>
      obtain ⟨b2, t2⟩ := p2
      obtain ⟨ht2, hb2L, h0b2, h0t2⟩ := hs2 b2 t2 hres2
      refine ⟨b2, ?_, by omega⟩
      simp [selectedPrefixLen, hres2]

/-- Witness for C4's amended theorem: with the identity token estimate
(strictly increasing), budget 2 selects prefix length 1 and budget 3
selects a length at least as large. -/
theorem budget_search_monotone_witness :
    ∃ b : ℤ, selectedPrefixLen (fun m => (m : ℚ)) 3 3 = some b ∧ (1 : ℤ) ≤ b :=
  budget_search_monotone (fun m => (m : ℚ)) 3 2 3
    (fun i j _ hij => by
      show (i : ℚ) < (j : ℚ)
      exact_mod_cast hij)
    (by decide) (by decide) 1 (by decide)

/-! ### Renderer-shape theorems (C8) -/

/-- C8 counterexample: `to_tree` on the empty tag list returns `''`,
which does not end with a trailing newline, so the claimed shape fails
for the empty input. -/
theorem to_tree_empty_no_newline :
    to_tree (fun _ _ _ => "") [] = "" ∧
    ¬ (to_tree (fun _ _ _ => "") []).data.getLast? = some (Char.ofNat 10) := by
  refine ⟨rfl, by decide⟩

theorem splitNl_ne_nil : ∀ cs : List Char, splitNl cs ≠ [] := by
  intro cs
  cases cs with
  | nil => simp [splitNl]
  | cons c cs' =>
      by_cases hc : c = '\n'
      · simp [splitNl, hc]
      · simp only [splitNl, if_neg hc]
        cases hsp : splitNl cs' <;> simp

theorem splitNl_no_newline : ∀ (cs : List Char), ∀ p ∈ splitNl cs, '\n' ∉ p := by
  intro cs
  induction cs with
  | nil =>
      intro p hp
      simp only [splitNl, List.mem_singleton] at hp
      subst hp
      simp
  | cons c cs' ih =>
      intro p hp
      by_cases hc : c = '\n'
      · rw [show splitNl (c :: cs') = [] :: splitNl cs' by simp [splitNl, hc]] at hp
        rcases List.mem_cons.mp hp with hp | hp
        · subst hp; simp
        · exact ih p hp
      · simp only [splitNl, if_neg hc] at hp
        cases hsp : splitNl cs' with
        | nil => exact absurd hsp (splitNl_ne_nil cs')
        | cons h t =>
            rw [hsp] at hp
            rcases List.mem_cons.mp hp with hp | hp
            · subst hp
              intro hmem
              rcases List.mem_cons.mp hmem with hmem | hmem
              · exact hc hmem.symm
              · exact ih h (hsp ▸ List.mem_cons_self _ _) hmem
            · exact ih p (hsp ▸ List.mem_cons_of_mem _ hp)

theorem splitNl_append_no_newline :
    ∀ (p cs : List Char), '\n' ∉ p → ∀ h t, splitNl cs = h :: t →
      splitNl (p ++ cs) = (p ++ h) :: t := by
  intro p
  induction p with
  | nil =>
      intro cs _ h t heq
      simpa using heq
  | cons a p' ih =>
      intro cs hn h t heq
      have ha : ¬ a = '\n' := by
        intro hh
        exact hn (hh ▸ List.mem_cons_self _ _)
      have hp' : '\n' ∉ p' := fun hh => hn (List.mem_cons_of_mem _ hh)
      have hrec := ih cs hp' h t heq
      simp only [List.cons_append, splitNl, if_neg ha, List.append_eq, hrec]

theorem splitNl_join : ∀ (qs : List (List Char)), (∀ q ∈ qs, '\n' ∉ q) → qs ≠ [] →
    splitNl (pyJoinNl qs ++ ['\n']) = qs ++ [[]] := by
  intro qs
  induction qs with
  | nil => intro _ hne; exact absurd rfl hne
  | cons q rest ih =>
      intro hq _
      cases rest with
      | nil =>
          have hq0 : '\n' ∉ q := hq q (List.mem_cons_self _ _)
          have hs : splitNl ['\n'] = [] :: [[]] := by simp [splitNl]
          have := splitNl_append_no_newline q ['\n'] hq0 [] [[]] hs
          simpa [pyJoinNl] using this
      | cons q' rest' =>
          have hq0 : '\n' ∉ q := hq q (List.mem_cons_self _ _)
          have hrest : ∀ r ∈ q' :: rest', '\n' ∉ r :=
            fun r hr => hq r (List.mem_cons_of_mem _ hr)
          have hihs : splitNl (pyJoinNl (q' :: rest') ++ ['\n']) =
              (q' :: rest') ++ [[]] := ih hrest (by simp)
          have hjoin : pyJoinNl (q :: q' :: rest') ++ ['\n'] =
              q ++ ('\n' :: (pyJoinNl (q' :: rest') ++ ['\n'])) := by
            simp [pyJoinNl]
          rw [hjoin]
          have hs2 : splitNl ('\n' :: (pyJoinNl (q' :: rest') ++ ['\n'])) =
              [] :: ((q' :: rest') ++ [[]]) := by
            rw [show splitNl ('\n' :: (pyJoinNl (q' :: rest') ++ ['\n'])) =
                [] :: splitNl (pyJoinNl (q' :: rest') ++ ['\n']) by simp [splitNl]]
            rw [hihs]
          have := splitNl_append_no_newline q _ hq0 _ _ hs2
          simpa using this

/-- Every line of `truncateLines s` has at most 100 characters, and the
result ends with a newline. -/
theorem truncateLines_shape (s : String) :
    (∀ l ∈ splitNl (truncateLines s).data, l.length ≤ 100) ∧
    (truncateLines s).data.getLast? = some '\n' := by
  have hq : ∀ q ∈ (pySplitlines s.data).map (fun l => l.take 100),
      '\n' ∉ q ∧ q.length ≤ 100 := by
    intro q hqm
    obtain ⟨p, hp, rfl⟩ := List.mem_map.mp hqm
    have hpmem : p ∈ splitNl s.data := by
      unfold pySplitlines at hp
      by_cases h0 : s.data = []
      · rw [if_pos h0] at hp; simp at hp
      · rw [if_neg h0] at hp
        by_cases h1 : s.data.getLast? = some '\n'
        · rw [if_pos h1] at hp
          exact List.dropLast_subset _ hp
        · rw [if_neg h1] at hp
          exact hp
    refine ⟨?_, ?_⟩
    · intro hmem
      exact splitNl_no_newline s.data p hpmem (List.take_subset 100 p hmem)
    · rw [List.length_take]
      exact min_le_left _ _
  have hdata : (truncateLines s).data =
      pyJoinNl ((pySplitlines s.data).map (fun l => l.take 100)) ++ ['\n'] := rfl
  constructor
  · rw [hdata]
    by_cases hqs : (pySplitlines s.data).map (fun l => l.take 100) = []
    · rw [hqs]
      intro l hl
      have h2 : splitNl (pyJoinNl ([] : List (List Char)) ++ ['\n']) = [[], []] := by
        simp [pyJoinNl, splitNl]
      rw [h2] at hl
      rcases List.mem_cons.mp hl with hl | hl
      · subst hl; simp
      · simp at hl; subst hl; simp
    · rw [splitNl_join _ (fun q hqm => (hq q hqm).1) hqs]
      intro l hl
      rcases List.mem_append.mp hl with hl | hl
      · exact (hq l hl).2
      · simp at hl; subst hl; simp
  · rw [hdata]
    exact List.getLast?_concat _

/-- C8 (amended): for every non-empty input tag list and every excerpt
renderer, the string returned by `to_tree` has no line longer than 100
characters and ends with a trailing newline.  (`to_tree` of the empty
list returns `''`, which has no trailing newline — see the
counterexample.) -/
theorem to_tree_shape (render : String → String → List ℤ → String)
    (tags : List RankedTag) (hne : tags ≠ []) :
    (∀ l ∈ splitNl (to_tree render tags).data, l.length ≤ 100) ∧
    (to_tree render tags).data.getLast? = some '\n' := by
  unfold to_tree
  rw [if_neg hne]
  exact truncateLines_shape _

/-- Witness for C8's amended theorem: a concrete one-marker render. -/
theorem to_tree_shape_witness :
    (∀ l ∈ splitNl (to_tree (fun _ _ _ => "code") [RankedTag.bare "a.py"]).data,
      l.length ≤ 100) ∧
    (to_tree (fun _ _ _ => "code") [RankedTag.bare "a.py"]).data.getLast? = some '\n' :=
  to_tree_shape (fun _ _ _ => "code") [RankedTag.bare "a.py"] (by decide)

end RepoMap
